import Mathlib

/-!
Verification development for the Ergodic-Information-Harvesting trajectory
optimizer (`ErgodicHarvestingLib/ergodic.py`) and its job-distribution layer
(`ErgodicHarvestingLib/SimulationMainQueue.py`).

Modelling conventions:
* machine floats are modelled as exact rationals (`ℚ`);
* the program instantiates the optimizer with scalar state and control
  (`nx = nu = 1`), so all matrix products (`matmult`) are plain rational
  multiplication;
* `scipy.integrate.solve_ivp` with method `RK23`, configured with
  `first_step = min_step = max_step` equal to the grid spacing and
  `t_eval = time`, is modelled as the fixed-step Bogacki-Shampine advance
  sampled exactly at the grid points;
* `scipy.interpolate.interp1d` is modelled as exact piecewise-linear
  interpolation;
* the transcendental basis values `cos(klist[k]·x)` and the quadrature
  norms `hk[k]` that the code obtains from `numpy.cos` / `scipy.quad`
  are abstracted as oracle functions, since the claims about them are
  purely structural.
-/

namespace ErgodicHarvesting

/-- `np.mean`: arithmetic mean of a list of samples. -/
def npMean (l : List ℚ) : ℚ := l.sum / (l.length : ℚ)

/-- `np.max` of a nonempty list (`0` on the empty list, which numpy rejects). -/
def npMax : List ℚ → ℚ
  | [] => 0
  | x :: xs => xs.foldl max x

/-- `scipy.integrate.trapz y x`: trapezoidal quadrature of samples `y` on grid `x`. -/
def trapz : List ℚ → List ℚ → ℚ
  | y1 :: y2 :: ys, t1 :: t2 :: ts =>
      (t2 - t1) * (y1 + y2) / 2 + trapz (y2 :: ys) (t2 :: ts)
  | _, _ => 0

/-- `scipy.interpolate.interp1d xs ys` evaluated at `t`: piecewise-linear
interpolation through the knots `(xs i, ys i)`. -/
def linterp : List ℚ → List ℚ → ℚ → ℚ
  | x1 :: x2 :: xs, y1 :: y2 :: ys, t =>
      if t ≤ x2 then y1 + (y2 - y1) * (t - x1) / (x2 - x1)
      else linterp (x2 :: xs) (y2 :: ys) t
  | _, ys, _ => ys.headD 0

/-- One fixed step of the Bogacki-Shampine third-order advance used by
`solve_ivp(method="RK23")`. -/
def bs23 (f : ℚ → ℚ → ℚ) (t h y : ℚ) : ℚ :=
  let k1 := f t y
  let k2 := f (t + h / 2) (y + h / 2 * k1)
  let k3 := f (t + 3 * h / 4) (y + 3 * h / 4 * k2)
  y + h * (2 / 9 * k1 + 1 / 3 * k2 + 4 / 9 * k3)

/-- `self.odeIntegrator fun y0`: fixed-step integration over the time grid,
returning the solution sampled at every grid point (`t_eval = time`),
starting with `y0` at the first grid point. -/
def odeSteps (f : ℚ → ℚ → ℚ) : ℚ → List ℚ → List ℚ
  | _, [] => []
  | y0, [_] => [y0]
  | y0, t1 :: t2 :: ts => y0 :: odeSteps f (bs23 f t1 (t2 - t1) y0) (t2 :: ts)

/-- `ProjectionBasedOpt.peqns` for scalar state: the Riccati-type right-hand
side, zero outside the time horizon `[t0, T]`.  `Rn` is accepted and unused,
exactly as in the source. -/
def peqns (t0 T : ℚ) (Al Bl : ℚ → ℚ) (Rn Qn : ℚ) (t pp : ℚ) : ℚ :=
  if t > T ∨ t < t0 then 0
  else pp * Al t + Al t * pp - pp * Bl t * Bl t * pp + Qn

/-- `ProjectionBasedOpt.reqns` for scalar state: the adjoint right-hand side.
Zero outside `[t0, T]`; inside, the interpolants are queried at the
substituted time `T - t`. -/
def reqns (t0 T : ℚ) (Al Bl a b Ps : ℚ → ℚ) (Rn Qn : ℚ) (t rr : ℚ) : ℚ :=
  if t > T ∨ t < t0 then 0
  else
    let s := T - t
    (Al s - Bl s * Bl s * Ps s) * rr + a s - Ps s * Bl s * b s

/-- `ProjectionBasedOpt.veqns` for scalar state. `Al`, `a`, `Rn`, `Qn` are
accepted and unused, exactly as in the source. -/
def veqns (zz Al Bl a b Ps Rs Rn Qn : ℚ) : ℚ :=
  -Bl * Ps * zz - Bl * Rs - b

/-- `ProjectionBasedOpt.zeqns` for scalar state: descent-direction state
perturbation right-hand side, zero outside `[t0, T]`. -/
def zeqns (t0 T : ℚ) (Al Bl a b Ps Rs : ℚ → ℚ) (Rn Qn : ℚ) (t zz : ℚ) : ℚ :=
  if t > T ∨ t < t0 then 0
  else Al t * zz + Bl t * veqns zz (Al t) (Bl t) (a t) (b t) (Ps t) (Rs t) Rn Qn

/-- `ProjectionBasedOpt.fofx`: single-integrator dynamics `dx = U(t)`,
zero outside `[t0, T]`. -/
def fofx (t0 T : ℚ) (U : ℚ → ℚ) (t X : ℚ) : ℚ :=
  if t > T ∨ t < t0 then 0 else U t

/-- `ProjectionBasedOpt.Psol`: integrates `peqns` over the time grid from the
boundary value `P1 = 1.0` with `Rn = Qn = 1.0`, returning the samples in the
order the integrator produced them (the source applies no `np.flip` here). -/
def Psol (Al Bl : ℚ → ℚ) (ts : List ℚ) : List ℚ :=
  odeSteps (peqns (ts.headD 0) (ts.getLastD 0) Al Bl 1 1) 1 ts

/-- `ProjectionBasedOpt.Rsol`: integrates `reqns` over the time grid from
`rinit2 = 0` with `Rn = Qn = 1.0` and reverses the sample order (`np.flip`). -/
def Rsol (Al Bl a b Ps : ℚ → ℚ) (ts : List ℚ) : List ℚ :=
  (odeSteps (reqns (ts.headD 0) (ts.getLastD 0) Al Bl a b Ps 1 1) 0 ts).reverse

/-- `ProjectionBasedOpt.dfdx` stores all-zero state Jacobians (`A_current`). -/
def A_current (n : ℕ) : List ℚ := List.replicate n 0

/-- `ProjectionBasedOpt.dfdu` stores all-one control Jacobians (`B_current`). -/
def B_current (n : ℕ) : List ℚ := List.replicate n 1

/-- `self.A_interp`: interpolant of the stored state Jacobians. -/
def A_interp (ts : List ℚ) : ℚ → ℚ := linterp ts (A_current ts.length)

/-- `self.B_interp`: interpolant of the stored control Jacobians. -/
def B_interp (ts : List ℚ) : ℚ → ℚ := linterp ts (B_current ts.length)

/-- `ProjectionBasedOpt.Ksol`: integrates `peqns` (with `Rk = Qk = 1.0`,
`P1 = 1.0`) and multiplies pointwise with `B_current`. -/
def Ksol (ts : List ℚ) : List ℚ :=
  let psoln :=
    odeSteps (peqns (ts.headD 0) (ts.getLastD 0) (A_interp ts) (B_interp ts) 1 1) 1 ts
  List.zipWith (fun bc p => bc * p) (B_current ts.length) psoln

/-- `ProjectionBasedOpt.proj`: feedback-projection right-hand side
`mu(t) + K(t)·(alpha(t) − X)`, zero outside `[t0, T]`. -/
def proj (t0 T : ℚ) (K mu alpha : ℚ → ℚ) (t X : ℚ) : ℚ :=
  if t > T ∨ t < t0 then 0 else mu t + K t * (alpha t - X)

/-- `ProjectionBasedOpt.projcontrol`: the feedback law at one grid sample. -/
def projcontrol (X K mu alpha : ℚ) : ℚ := mu + K * (alpha - X)

/-- `ProjectionBasedOpt.simulate`: forward integration of `fofx` under the
linear interpolant of the sampled control `U`. -/
def simulate (ts : List ℚ) (X0 : ℚ) (U : List ℚ) : List ℚ :=
  odeSteps (fofx (ts.headD 0) (ts.getLastD 0) (linterp ts U)) X0 ts

/-- `ProjectionBasedOpt.project`: solves the Riccati gain, forward-integrates
the feedback law from `X0` along the reference `(alpha, mu)`, and recovers the
projected control from `projcontrol` at every grid sample. -/
def project (ts : List ℚ) (X0 : ℚ) (alpha mu : List ℚ) : List ℚ × List ℚ :=
  let Ks := Ksol ts
  let xs := odeSteps
    (proj (ts.headD 0) (ts.getLastD 0) (linterp ts Ks) (linterp ts mu) (linterp ts alpha))
    X0 ts
  let us := List.zipWith (fun xk km => projcontrol xk km.1 km.2.1 km.2.2)
    xs (List.zip Ks (List.zip mu alpha))
  (xs, us)

/-- `ProjectionBasedOpt.cost_pointwise`: running cost `0.5·u·R·u`
(the state argument is accepted and unused, as in the source). -/
def cost_pointwise (R x u : ℚ) : ℚ := 1 / 2 * (u * R * u)

/-- `ProjectionBasedOpt.cost`: trapezoidal quadrature of the pointwise
running cost over the time grid. -/
def cost (R : ℚ) (X U ts : List ℚ) : ℚ :=
  trapz (List.zipWith (cost_pointwise R) X U) ts

/-- `ProjectionBasedOpt.eval_cost`: the cost of the current trajectory. -/
def eval_cost (R : ℚ) (X_current U_current ts : List ℚ) : ℚ :=
  cost R X_current U_current ts

/-- `ProjectionBasedOpt.dldu_pointwise`: pointwise linearized cost w.r.t.
the control, `R·u`. -/
def dldu_pointwise (R x u : ℚ) : ℚ := R * u

/-- `ProjectionBasedOpt.dldu`: control-cost gradient over the grid; the
sample at the first grid point additionally receives `uinit * Quinit`. -/
def dldu (R Quinit uinit : ℚ) (X U : List ℚ) : List ℚ :=
  (List.zipWith (dldu_pointwise R) X U).modifyHead (fun v => v + uinit * Quinit)

/-- `ErgodicOpt`: workspace dimension, hard-coded to 1. -/
def dimw : ℕ := 1

/-- `ErgodicOpt`: workspace upper limit, hard-coded to 1.0. -/
def wlimit : ℚ := 1

/-- The exponent `s = (dimw + 1) / 2` of the spectral smoothing weights
(an exact integer for the code's `dimw = 1`). -/
def sExp : ℕ := (dimw + 1) / 2

/-- `ErgodicOpt.__init__`: spectral smoothing weight
`Lambdak[k] = 1 / (1 + k²) ^ s`. -/
def Lambdak (k : ℕ) : ℚ := 1 / (1 + (k : ℚ) ^ 2) ^ sExp

/-- `ErgodicOpt.calculate_ergodicity`:
`erg = Σ Lambdak[k]·(ck[k] − uk[k])²` over the `nFourier` bands. -/
def calculate_ergodicity (n : ℕ) (ck uk : Fin n → ℚ) : ℚ :=
  ∑ k : Fin n, Lambdak k.val * (ck k - uk k) ^ 2

/-- `ErgodicOpt.barrier`, pointwise: quadratic penalty for one sample —
`(x − wlimit)²` above the workspace, `x²` below it, the two contributions
added just as the source's two masked writes. -/
def barrier_pointwise (x : ℚ) : ℚ :=
  (if x > wlimit then (x - wlimit) ^ 2 else 0) + (if x < 0 then x ^ 2 else 0)

/-- `ErgodicOpt.barrier`: trapezoidal quadrature of the pointwise penalty
over the time grid. -/
def barrier (ts X : List ℚ) : ℚ :=
  trapz (X.map barrier_pointwise) ts

/-- `ErgodicOpt.normalize_pdf`: divide the density by
`sum(pdf) / product(pdf.shape)` so its spatial average becomes 1. -/
def normalize_pdf (p : List ℚ) : List ℚ :=
  p.map (fun v => v / (p.sum / (p.length : ℚ)))

/-- `ErgodicOpt.calculate_uk`: the target Fourier coefficient of band `k`.
`hk k` abstracts the quadrature norm `sqrt(∫ cos²(klist[k] x) dx)` and
`cosb k x` abstracts the basis value `cos(klist[k]·x)`. -/
def calculate_uk (hk : ℕ → ℚ) (cosb : ℕ → ℚ → ℚ) (res : ℚ)
    (xlist p : List ℚ) (k : ℕ) : ℚ :=
  (List.zipWith (fun pv x => pv / hk k * (wlimit / res * cosb k x)) p xlist).sum

/-- `ErgodicOpt.set_pdf`: resample the supplied density from the `eidTime`
grid onto the internal grid `xlist`, normalize it, and recompute the target
coefficients. Returns the stored `(self.pdf, self.uk)`. -/
def set_pdf (eidTime xlist : List ℚ) (hk : ℕ → ℚ) (cosb : ℕ → ℚ → ℚ)
    (res : ℚ) (pdfIn : List ℚ) : List ℚ × (ℕ → ℚ) :=
  let p := normalize_pdf (xlist.map (linterp eidTime pdfIn))
  (p, calculate_uk hk cosb res xlist p)

/-- `SimulationMainQueue.normalize`: remove the sensor-series offset from
both series, rescale both by `max(centered sensor) / gain`, then add the
common offset `mid`. -/
def normalize (s t : List ℚ) (mid gain : ℚ) : List ℚ × List ℚ :=
  let sMean := npMean s
  let s1 := s.map (fun x => x - sMean)
  let t1 := t.map (fun x => x - sMean)
  let sScale := npMax s1 * gain⁻¹
  let s2 := s1.map (fun x => x / sScale)
  let t2 := t1.map (fun x => x / sScale)
  (s2.map (fun x => x + mid), t2.map (fun x => x + mid))

/-- An exception type as seen by `QueueWorker`'s `try` block: either
`queue.Empty` or any other exception, tagged by an identifying code. -/
inductive WorkerExc
  | empty
  | other (code : ℕ)
deriving DecidableEq

/-- One observable event of `QueueWorker`'s fetch-execute loop: the blocking
`get` timing out (raising `queue.Empty`), a job fetched and executed
successfully, or an exception raised somewhere inside the `try` block while
fetching or executing. -/
inductive WorkerEvent
  | timeout
  | jobOk
  | raised (e : WorkerExc)
deriving DecidableEq

/-- `SimulationMainQueue.QueueWorker`: processes events until one of the
`except` clauses fires.  `some none` models a normal `return`, `some (some e)`
models the exception `e` propagating out of the worker uncaught, and `none`
means the finite event trace ended with the loop still running. -/
def QueueWorker : List WorkerEvent → Option (Option WorkerExc)
  | [] => none
  | WorkerEvent.timeout :: _ => some none
  | WorkerEvent.jobOk :: evs => QueueWorker evs
  | WorkerEvent.raised WorkerExc.empty :: _ => some none
  | WorkerEvent.raised (WorkerExc.other c) :: _ => some (some (WorkerExc.other c))

/-- Modelled from the spec claim (claim-side definition): the worker trace
terminates via the queue `get` timing out — zero or more successful jobs
followed by a `timeout` event. -/
def specTimeoutReturn : List WorkerEvent → Bool
  | [] => false
  | WorkerEvent.timeout :: _ => true
  | WorkerEvent.jobOk :: evs => specTimeoutReturn evs
  | WorkerEvent.raised _ :: _ => false

/-- Code-side characterisation: the first event that is not a successfully
executed job raises `queue.Empty` (either the `get` timeout or a job raising
`Empty` itself). -/
def emptyStops : List WorkerEvent → Bool
  | [] => false
  | WorkerEvent.timeout :: _ => true
  | WorkerEvent.jobOk :: evs => emptyStops evs
  | WorkerEvent.raised WorkerExc.empty :: _ => true
  | WorkerEvent.raised (WorkerExc.other _) :: _ => false

/-- Code-side characterisation: the first event that is not a successfully
executed job raises the non-`Empty` exception with code `c`. -/
def firstOther (c : ℕ) : List WorkerEvent → Bool
  | [] => false
  | WorkerEvent.timeout :: _ => false
  | WorkerEvent.jobOk :: evs => firstOther c evs
  | WorkerEvent.raised WorkerExc.empty :: _ => false
  | WorkerEvent.raised (WorkerExc.other c2) :: _ => c2 == c

/-! ## Helper lemmas -/

lemma odeSteps_head_eq (f : ℚ → ℚ → ℚ) (y0 : ℚ) (ts : List ℚ) (h : ts ≠ []) :
    (odeSteps f y0 ts).head? = some y0 := by
  rcases ts with _ | ⟨t1, _ | ⟨t2, ts'⟩⟩
  · exact absurd rfl h
  · rfl
  · rfl

lemma bs23_fixed (f : ℚ → ℚ → ℚ) (c t h : ℚ) (hf : ∀ s, f s c = 0) :
    bs23 f t h c = c := by
  simp [bs23, hf]

lemma odeSteps_fixed (f : ℚ → ℚ → ℚ) (c : ℚ) (hf : ∀ s, f s c = 0) :
    ∀ ts : List ℚ, odeSteps f c ts = List.replicate ts.length c := by
  intro ts
  induction ts with
  | nil => rfl
  | cons t1 rest ih =>
    cases rest with
    | nil => rfl
    | cons t2 ts' =>
      simp only [odeSteps, bs23_fixed f c t1 (t2 - t1) hf, List.length_cons]
      rw [ih]
      rfl

lemma trapz_nonneg (ys : List ℚ) : ∀ ts : List ℚ, List.Chain' (· < ·) ts →
    (∀ y ∈ ys, 0 ≤ y) → 0 ≤ trapz ys ts := by
  induction ys with
  | nil => intro ts _ _; cases ts <;> simp [trapz]
  | cons y1 rest ih =>
    intro ts hc hnn
    cases rest with
    | nil => rcases ts with _ | ⟨t1, ts'⟩ <;> simp [trapz]
    | cons y2 ys' =>
      rcases ts with _ | ⟨t1, _ | ⟨t2, ts'⟩⟩
      · simp [trapz]
      · simp [trapz]
      · simp only [trapz]
        have h12 : t1 < t2 := (List.chain'_cons.mp hc).1
        have hrest := (List.chain'_cons.mp hc).2
        have h1 : 0 ≤ y1 := hnn y1 (by simp)
        have h2 : 0 ≤ y2 := hnn y2 (by simp)
        have hih := ih (t2 :: ts') hrest (fun y hy => hnn y (List.mem_cons_of_mem _ hy))
        have hA : 0 ≤ (t2 - t1) * (y1 + y2) / 2 := by
          apply div_nonneg _ (by norm_num)
          exact mul_nonneg (by linarith) (by linarith)
        linarith

lemma trapz_zero_of_all (ys : List ℚ) : ∀ ts : List ℚ,
    (∀ y ∈ ys, y = 0) → trapz ys ts = 0 := by
  induction ys with
  | nil => intro ts _; cases ts <;> simp [trapz]
  | cons y1 rest ih =>
    intro ts hall
    cases rest with
    | nil => rcases ts with _ | ⟨t1, ts'⟩ <;> simp [trapz]
    | cons y2 ys' =>
      rcases ts with _ | ⟨t1, _ | ⟨t2, ts'⟩⟩
      · simp [trapz]
      · simp [trapz]
      · simp only [trapz]
        rw [ih (t2 :: ts') (fun y hy => hall y (List.mem_cons_of_mem _ hy)),
          hall y1 (by simp), hall y2 (by simp)]
        ring

lemma trapz_eq_zero_iff (ys : List ℚ) : ∀ ts : List ℚ, List.Chain' (· < ·) ts →
    ys.length = ts.length → 2 ≤ ys.length → (∀ y ∈ ys, 0 ≤ y) →
    (trapz ys ts = 0 ↔ ∀ y ∈ ys, y = 0) := by
  induction ys with
  | nil => intro ts _ _ h2 _; simp at h2
  | cons y1 rest ih =>
    intro ts hc hlen h2 hnn
    cases rest with
    | nil => simp at h2
    | cons y2 ys' =>
      rcases ts with _ | ⟨t1, _ | ⟨t2, ts'⟩⟩
      · simp at hlen
      · simp at hlen
      · have h12 : t1 < t2 := (List.chain'_cons.mp hc).1
        have hrest := (List.chain'_cons.mp hc).2
        have h1 : 0 ≤ y1 := hnn y1 (by simp)
        have h2' : 0 ≤ y2 := hnn y2 (by simp)
        have hnnrest : ∀ y ∈ y2 :: ys', 0 ≤ y :=
          fun y hy => hnn y (List.mem_cons_of_mem _ hy)
        have hA : 0 ≤ (t2 - t1) * (y1 + y2) / 2 := by
          apply div_nonneg _ (by norm_num)
          exact mul_nonneg (by linarith) (by linarith)
        have hB : 0 ≤ trapz (y2 :: ys') (t2 :: ts') := trapz_nonneg _ _ hrest hnnrest
        constructor
        · intro hz
          simp only [trapz] at hz
          have hA0 : (t2 - t1) * (y1 + y2) / 2 = 0 := by linarith
          have hB0 : trapz (y2 :: ys') (t2 :: ts') = 0 := by linarith
          have hy12 : y1 + y2 = 0 := by
            rcases div_eq_zero_iff.mp hA0 with hmul | habs
            · rcases mul_eq_zero.mp hmul with h' | h'
              · exact absurd h' (by intro hcontra; linarith)
              · exact h'
            · norm_num at habs
          have hy1 : y1 = 0 := by linarith
          have hy2 : y2 = 0 := by linarith
          cases ys' with
          | nil =>
            intro y hy
            rcases List.mem_cons.mp hy with rfl | hy'
            · exact hy1
            · rcases List.mem_cons.mp hy' with rfl | hy''
              · exact hy2
              · simp at hy''
          | cons y3 ys'' =>
            have hlen' : (y2 :: y3 :: ys'').length = (t2 :: ts').length := by
              simpa using hlen
            have hall := (ih (t2 :: ts') hrest hlen' (by simp) hnnrest).mp hB0
            intro y hy
            rcases List.mem_cons.mp hy with rfl | hy'
            · exact hy1
            · exact hall y hy'
        · intro hall
          exact trapz_zero_of_all _ _ hall

lemma barrier_pointwise_nonneg (x : ℚ) : 0 ≤ barrier_pointwise x := by
  unfold barrier_pointwise
  split <;> split <;> positivity

lemma barrier_pointwise_eq_zero_iff (x : ℚ) :
    barrier_pointwise x = 0 ↔ 0 ≤ x ∧ x ≤ wlimit := by
  have hw : wlimit = 1 := rfl
  by_cases h1 : x > wlimit
  · have hx0 : ¬ x < 0 := by rw [hw] at h1; intro h; linarith
    simp only [barrier_pointwise, if_pos h1, if_neg hx0, add_zero]
    constructor
    · intro h
      have := sq_eq_zero_iff.mp h
      exfalso; linarith [sub_eq_zero.mp this]
    · rintro ⟨_, h⟩
      exact absurd h (not_le.mpr h1)
  · by_cases h2 : x < 0
    · simp only [barrier_pointwise, if_neg h1, if_pos h2, zero_add]
      constructor
      · intro h
        have := sq_eq_zero_iff.mp h
        exfalso; linarith
      · rintro ⟨h, _⟩
        exfalso; linarith
    · simp only [barrier_pointwise, if_neg h1, if_neg h2, add_zero]
      constructor
      · intro _
        exact ⟨le_of_not_lt h2, le_of_not_lt h1⟩
      · intro _
        norm_num

lemma sum_map_div (l : List ℚ) (c : ℚ) :
    (l.map (fun v => v / c)).sum = l.sum / c := by
  induction l with
  | nil => simp
  | cons x xs ih => simp [ih, add_div]

lemma sum_zipWith_factor (f g : ℚ → ℚ → ℚ) (c : ℚ)
    (hfg : ∀ a b, f a b = g a b * c) :
    ∀ p q : List ℚ, (List.zipWith f p q).sum = (List.zipWith g p q).sum * c := by
  intro p
  induction p with
  | nil => intro q; simp
  | cons a p2 ih =>
    intro q
    cases q with
    | nil => simp
    | cons b q2 =>
      simp only [List.zipWith_cons_cons, List.sum_cons]
      rw [hfg, ih, add_mul]

lemma zipWith_cost_eq_map (R : ℚ) : ∀ X U : List ℚ, X.length = U.length →
    List.zipWith (cost_pointwise R) X U = U.map (fun u => 1 / 2 * (u * R * u)) := by
  intro X
  induction X with
  | nil =>
    intro U h
    cases U with
    | nil => simp
    | cons u us => simp at h
  | cons x xs ih =>
    intro U h
    cases U with
    | nil => simp at h
    | cons u us =>
      simp only [List.zipWith_cons_cons, List.map_cons]
      rw [ih us (by simpa using h)]
      rfl

lemma le_foldl_max (l : List ℚ) : ∀ a : ℚ, a ≤ l.foldl max a := by
  induction l with
  | nil => intro a; simp
  | cons x xs ih =>
    intro a
    simp only [List.foldl_cons]
    exact le_trans (le_max_left a x) (ih (max a x))

lemma mem_le_foldl_max (l : List ℚ) : ∀ (a x : ℚ), x ∈ l → x ≤ l.foldl max a := by
  induction l with
  | nil => intro a x hx; simp at hx
  | cons y ys ih =>
    intro a x hx
    simp only [List.foldl_cons]
    rcases List.mem_cons.mp hx with rfl | hx'
    · exact le_trans (le_max_right a x) (le_foldl_max ys (max a x))
    · exact ih (max a y) x hx'

lemma le_npMax (l : List ℚ) (x : ℚ) (hx : x ∈ l) : x ≤ npMax l := by
  cases l with
  | nil => simp at hx
  | cons y ys =>
    simp only [npMax]
    rcases List.mem_cons.mp hx with rfl | hx'
    · exact le_foldl_max ys x
    · exact mem_le_foldl_max ys y x hx'

lemma sum_le_length_mul (l : List ℚ) (M : ℚ) (h : ∀ x ∈ l, x ≤ M) :
    l.sum ≤ (l.length : ℚ) * M := by
  induction l with
  | nil => simp
  | cons x xs ih =>
    simp only [List.sum_cons, List.length_cons]
    have h1 : x ≤ M := h x (by simp)
    have h2 : xs.sum ≤ (xs.length : ℚ) * M := ih (fun y hy => h y (by simp [hy]))
    have h3 : ((xs.length + 1 : ℕ) : ℚ) * M = (xs.length : ℚ) * M + M := by
      push_cast; ring
    rw [h3]
    linarith

lemma foldl_max_map_affine (c b : ℚ) (hc : 0 ≤ c) (l : List ℚ) :
    ∀ a : ℚ, (l.map (fun x => x * c + b)).foldl max (a * c + b) = l.foldl max a * c + b := by
  have hmono : Monotone (fun x : ℚ => x * c + b) :=
    fun x y hxy => by
      simp only
      have := mul_le_mul_of_nonneg_right hxy hc
      linarith
  induction l with
  | nil => intro a; simp
  | cons x xs ih =>
    intro a
    simp only [List.map_cons, List.foldl_cons]
    rw [← ih (max a x), ← hmono.map_max]

lemma npMax_map_affine (c b : ℚ) (hc : 0 ≤ c) (l : List ℚ) (hl : l ≠ []) :
    npMax (l.map (fun x => x * c + b)) = npMax l * c + b := by
  cases l with
  | nil => exact absurd rfl hl
  | cons x xs =>
    simpa [npMax] using foldl_max_map_affine c b hc xs x

lemma sum_map_affine (c b : ℚ) (l : List ℚ) :
    (l.map (fun x => x * c + b)).sum = l.sum * c + (l.length : ℚ) * b := by
  induction l with
  | nil => simp
  | cons x xs ih =>
    simp only [List.map_cons, List.sum_cons, List.length_cons, ih]
    push_cast
    ring

lemma sum_map_sub_const (l : List ℚ) (c : ℚ) :
    (l.map (fun x => x - c)).sum = l.sum - (l.length : ℚ) * c := by
  induction l with
  | nil => simp
  | cons x xs ih =>
    simp only [List.map_cons, List.sum_cons, List.length_cons, ih]
    push_cast
    ring

lemma length_cast_ne_zero (s : List ℚ) (hs : s ≠ []) : ((s.length : ℚ)) ≠ 0 := by
  have h0 : s.length ≠ 0 := fun hz => hs (List.length_eq_zero.mp hz)
  exact_mod_cast h0

lemma sum_centered (s : List ℚ) (hs : s ≠ []) :
    (s.map (fun x => x - npMean s)).sum = 0 := by
  have hn := length_cast_ne_zero s hs
  rw [sum_map_sub_const, npMean]
  field_simp

lemma npMax_centered_nonneg (s : List ℚ) (hs : s ≠ []) :
    0 ≤ npMax (s.map (fun x => x - npMean s)) := by
  have hsum := sum_centered s hs
  have hle := sum_le_length_mul (s.map (fun x => x - npMean s))
    (npMax (s.map (fun x => x - npMean s))) (fun x hx => le_npMax _ x hx)
  rw [hsum] at hle
  have hnpos : (0 : ℚ) < ((s.map (fun x => x - npMean s)).length : ℚ) := by
    rw [List.length_map]
    exact_mod_cast List.length_pos.mpr hs
  nlinarith

lemma npMean_map_affine (c b : ℚ) (l : List ℚ) (hl : l ≠ []) :
    npMean (l.map (fun x => x * c + b)) = npMean l * c + b := by
  have hn := length_cast_ne_zero l hl
  rw [npMean, npMean, sum_map_affine, List.length_map]
  field_simp
  ring

lemma div_mul_inv_eq (x M g : ℚ) : x / (M * g⁻¹) = x * g / M := by
  rcases eq_or_ne g 0 with rfl | hg
  · simp
  · rw [div_eq_mul_inv, mul_inv, inv_inv, div_eq_mul_inv]
    ring

/-! ## Claim theorems -/

/-- C7: the spectral smoothing weights satisfy
`Lambdak[k] = (1 + k²)^(−(dimw+1)/2)`, which for the code's workspace
dimension `dimw = 1` equals `1/(1+k²)`; every weight is strictly positive
and the weights strictly decrease in `k`, so low spatial frequencies are
weighted more heavily than high ones. -/
theorem Lambdak_c7 :
    (∀ k : ℕ, Lambdak k = 1 / (1 + (k : ℚ) ^ 2)) ∧
    (∀ k : ℕ, 0 < Lambdak k) ∧
    (∀ j k : ℕ, j < k → Lambdak k < Lambdak j) := by
  have hform : ∀ k : ℕ, Lambdak k = 1 / (1 + (k : ℚ) ^ 2) := by
    intro k
    have hs : sExp = 1 := rfl
    rw [Lambdak, hs, pow_one]
  have hpos : ∀ k : ℕ, 0 < Lambdak k := by
    intro k
    rw [hform]
    positivity
  refine ⟨hform, hpos, ?_⟩
  intro j k hjk
  rw [hform, hform]
  have hj : (0 : ℚ) < 1 + (j : ℚ) ^ 2 := by positivity
  have hjk' : (j : ℚ) < (k : ℚ) := by exact_mod_cast hjk
  have hj0 : (0 : ℚ) ≤ (j : ℚ) := by positivity
  have h2 : (j : ℚ) ^ 2 < (k : ℚ) ^ 2 := by nlinarith
  exact one_div_lt_one_div_of_lt hj (by linarith)

/-- C7 witness: the weight of band 2 is strictly below that of band 1. -/
theorem Lambdak_c7_witness : Lambdak 2 < Lambdak 1 :=
  Lambdak_c7.2.2 1 2 (by norm_num)

/-- C9: every ODE right-hand side handed to the fixed-step integrator —
`peqns`, `reqns`, `zeqns` and `fofx` — returns zero whenever its time
argument lies strictly outside `[time[0], time[-1]]`, for every choice of
interpolants and state, so an overshooting integrator step never evaluates
the grid interpolants outside their domain. -/
theorem rhs_guard_c9 (t0 T : ℚ) (Al Bl a b Ps Rs U : ℚ → ℚ)
    (Rn Qn t pp rr zz X : ℚ) (h : t > T ∨ t < t0) :
    peqns t0 T Al Bl Rn Qn t pp = 0 ∧
    reqns t0 T Al Bl a b Ps Rn Qn t rr = 0 ∧
    zeqns t0 T Al Bl a b Ps Rs Rn Qn t zz = 0 ∧
    fofx t0 T U t X = 0 := by
  refine ⟨?_, ?_, ?_, ?_⟩ <;> simp [peqns, reqns, zeqns, fofx, h]

/-- C9 witness at `t = 2` outside the horizon `[0, 1]`. -/
theorem rhs_guard_c9_witness :
    peqns 0 1 (fun _ => 0) (fun _ => 0) 1 1 2 1 = 0 ∧
    reqns 0 1 (fun _ => 0) (fun _ => 0) (fun _ => 0) (fun _ => 0) (fun _ => 0) 1 1 2 1 = 0 ∧
    zeqns 0 1 (fun _ => 0) (fun _ => 0) (fun _ => 0) (fun _ => 0) (fun _ => 0)
      (fun _ => 0) 1 1 2 1 = 0 ∧
    fofx 0 1 (fun _ => 0) 2 1 = 0 :=
  rhs_guard_c9 0 1 (fun _ => 0) (fun _ => 0) (fun _ => 0) (fun _ => 0) (fun _ => 0)
    (fun _ => 0) (fun _ => 0) 1 1 2 1 1 1 1 (Or.inl (by norm_num))

/-- C8 counterexample: an exception of type `queue.Empty` raised while
executing a job is caught by the worker's `except Empty` clause, so the
worker returns normally even though the blocking `get` never timed out with
the queue empty — refuting the claimed "exactly when". -/
theorem QueueWorker_c8_counterexample :
    QueueWorker [WorkerEvent.raised WorkerExc.empty] = some none ∧
    specTimeoutReturn [WorkerEvent.raised WorkerExc.empty] = false :=
  ⟨rfl, rfl⟩

/-- C8 amended: the worker returns normally exactly when the first event that
is not a successfully executed job raises `queue.Empty` — in the program the
blocking `get` timing out, but in principle also a job raising `Empty` — and
it propagates any non-`Empty` exception uncaught exactly when that first
event raises it, with no catching, retrying, or conversion into a result. -/
theorem QueueWorker_c8_amended (evs : List WorkerEvent) :
    (QueueWorker evs = some none ↔ emptyStops evs = true) ∧
    (∀ c : ℕ, QueueWorker evs = some (some (WorkerExc.other c)) ↔
      firstOther c evs = true) := by
  induction evs with
  | nil => exact ⟨by simp [QueueWorker, emptyStops], fun c => by simp [QueueWorker, firstOther]⟩
  | cons ev rest ih =>
    cases ev with
    | timeout =>
      exact ⟨by simp [QueueWorker, emptyStops], fun c => by simp [QueueWorker, firstOther]⟩
    | jobOk =>
      constructor
      · simpa [QueueWorker, emptyStops] using ih.1
      · intro c
        simpa [QueueWorker, firstOther] using ih.2 c
    | raised e =>
      cases e with
      | empty =>
        exact ⟨by simp [QueueWorker, emptyStops], fun c => by simp [QueueWorker, firstOther]⟩
      | other c2 =>
        constructor
        · simp [QueueWorker, emptyStops]
        · intro c
          simp [QueueWorker, firstOther, beq_iff_eq]

/-- C1: the ergodic metric `Σ Lambdak[k]·(ck[k] − uk[k])²` vanishes iff
`ck = uk` elementwise, is strictly positive otherwise, and strictly
increases when any single mismatch `|ck[k] − uk[k]|` grows with all other
mismatches held fixed (using that every `Lambdak[k]` is strictly positive). -/
theorem calculate_ergodicity_c1 (n : ℕ) (ck uk : Fin n → ℚ) :
    (calculate_ergodicity n ck uk = 0 ↔ ∀ k, ck k = uk k) ∧
    (ck ≠ uk → 0 < calculate_ergodicity n ck uk) ∧
    (∀ (ck' : Fin n → ℚ) (k0 : Fin n),
      (∀ k, k ≠ k0 → |ck' k - uk k| = |ck k - uk k|) →
      |ck k0 - uk k0| < |ck' k0 - uk k0| →
      calculate_ergodicity n ck uk < calculate_ergodicity n ck' uk) := by
  have hpos : ∀ m : ℕ, 0 < Lambdak m := by
    intro m
    rw [Lambdak]
    positivity
  have hterm : ∀ (c : Fin n → ℚ) (k : Fin n), 0 ≤ Lambdak k.val * (c k - uk k) ^ 2 := by
    intro c k
    have := (hpos k.val).le
    positivity
  have hiff : calculate_ergodicity n ck uk = 0 ↔ ∀ k, ck k = uk k := by
    unfold calculate_ergodicity
    rw [Finset.sum_eq_zero_iff_of_nonneg (fun k _ => hterm ck k)]
    constructor
    · intro h k
      have hk := h k (Finset.mem_univ k)
      rcases mul_eq_zero.mp hk with h0 | h0
      · exact absurd h0 (ne_of_gt (hpos k.val))
      · have := sq_eq_zero_iff.mp h0
        linarith [sub_eq_zero.mp this]
    · intro h k _
      rw [h k, sub_self]
      ring
  have hpart2 : ck ≠ uk → 0 < calculate_ergodicity n ck uk := by
    intro hne
    have hge : 0 ≤ calculate_ergodicity n ck uk := by
      unfold calculate_ergodicity
      exact Finset.sum_nonneg (fun k _ => hterm ck k)
    rcases eq_or_lt_of_le hge with heq | hlt
    · exact absurd (funext (hiff.mp heq.symm)) hne
    · exact hlt
  refine ⟨hiff, hpart2, ?_⟩
  intro ck' k0 hfix hgrow
  unfold calculate_ergodicity
  rw [← Finset.add_sum_erase Finset.univ
      (fun k => Lambdak k.val * (ck k - uk k) ^ 2) (Finset.mem_univ k0),
    ← Finset.add_sum_erase Finset.univ
      (fun k => Lambdak k.val * (ck' k - uk k) ^ 2) (Finset.mem_univ k0)]
  have hsum_eq : ∑ k ∈ Finset.univ.erase k0, Lambdak k.val * (ck' k - uk k) ^ 2
      = ∑ k ∈ Finset.univ.erase k0, Lambdak k.val * (ck k - uk k) ^ 2 := by
    apply Finset.sum_congr rfl
    intro k hk
    have hne : k ≠ k0 := (Finset.mem_erase.mp hk).1
    have habs := hfix k hne
    have hsq : (ck' k - uk k) ^ 2 = (ck k - uk k) ^ 2 := by
      rw [← sq_abs (ck' k - uk k), ← sq_abs (ck k - uk k), habs]
    rw [hsq]
  have hk0 : Lambdak k0.val * (ck k0 - uk k0) ^ 2
      < Lambdak k0.val * (ck' k0 - uk k0) ^ 2 := by
    apply mul_lt_mul_of_pos_left _ (hpos k0.val)
    rw [← sq_abs (ck k0 - uk k0), ← sq_abs (ck' k0 - uk k0)]
    nlinarith [abs_nonneg (ck k0 - uk k0), abs_nonneg (ck' k0 - uk k0)]
  rw [hsum_eq]
  exact add_lt_add_right hk0 _

/-- C1 witness: growing the single mismatch of a one-band metric from 0 to 1
strictly increases the metric. -/
theorem calculate_ergodicity_c1_witness :
    calculate_ergodicity 1 (fun _ => 0) (fun _ => 0)
      < calculate_ergodicity 1 (fun _ => 1) (fun _ => 0) :=
  (calculate_ergodicity_c1 1 (fun _ => 0) (fun _ => 0)).2.2 (fun _ => 1) 0
    (fun k hk => absurd (Subsingleton.elim k 0) hk) (by norm_num)

/-- C2 counterexample: with interpolants `Al = id`, `Bl = 1` on the grid
`[0, 1/2, 1]`, `Psol` does not return the reverse of the sample sequence its
forward τ-integration produced — the source applies no `np.flip` in
`Psol`/`Ksol` (only `Rsol` flips), so the claimed reversed reindexing, under
which the first returned sample would be the value at `t = 0` of the solution
with boundary condition `P1` at `t = T`, fails. -/
theorem Psol_c2_counterexample :
    Psol (fun t => t) (fun _ => 1) [0, 1/2, 1] ≠
      (odeSteps (peqns 0 1 (fun t => t) (fun _ => 1) 1 1) 1 [0, 1/2, 1]).reverse := by
  norm_num [Psol, odeSteps, bs23, peqns]

/-- C2 amended: `Psol` integrates `peqns` forward from the boundary value
`P1 = 1` and returns the samples unreversed, so its first returned sample is
`P1` itself (under the backward-time reading, the value at `t = T`, not
`t = 0`); the sample-order flip of the time-reversal convention is applied
only in `Rsol`.  With the program's hard-coded single-integrator
linearization (`A ≡ 0`, `B ≡ 1`, `Q = P1 = 1`) every sample equals 1, so the
returned gain potential is constant and its time indexing is immaterial. -/
theorem Psol_c2_amended (Al Bl : ℚ → ℚ) (ts : List ℚ) (h : ts ≠ []) :
    (Psol Al Bl ts).head? = some 1 ∧
    ((∀ t, Al t = 0) → (∀ t, Bl t = 1) →
      Psol Al Bl ts = List.replicate ts.length 1) := by
  constructor
  · exact odeSteps_head_eq _ _ ts h
  · intro hA hB
    apply odeSteps_fixed
    intro s
    unfold peqns
    split
    · rfl
    · rw [hA, hB]
      norm_num

/-- C2 amended witness on the grid `[0, 1]` with the program's constant
linearization. -/
theorem Psol_c2_amended_witness :
    (Psol (fun _ => 0) (fun _ => 1) [0, 1]).head? = some 1 ∧
    Psol (fun _ => 0) (fun _ => 1) [0, 1] = List.replicate 2 1 := by
  have h := Psol_c2_amended (fun _ => 0) (fun _ => 1) [0, 1] (by decide)
  exact ⟨h.1, by simpa using h.2 (fun _ => rfl) (fun _ => rfl)⟩

/-- C3 counterexample: at `R = 2`, `X = [0, 0]`, `U = [1, 1]` on the grid
`[0, 1]` with `Quinit = uinit = 1`, the evaluated cost equals the bare
trapezoidal control-effort quadrature (here `1`) and therefore differs from
that quadrature plus the nonzero initial-control weighting term
`Quinit·uinit·U[0] = 1` that the claim asserts is included. -/
theorem eval_cost_c3_counterexample :
    eval_cost 2 [0, 0] [1, 1] [0, 1] =
      trapz (List.zipWith (cost_pointwise 2) [0, 0] [1, 1]) [0, 1] ∧
    eval_cost 2 [0, 0] [1, 1] [0, 1] ≠
      trapz (List.zipWith (cost_pointwise 2) [0, 0] [1, 1]) [0, 1] + 1 * 1 * 1 :=
  ⟨rfl, by norm_num [eval_cost, cost, trapz, cost_pointwise]⟩

/-- C3 amended: `cost`/`eval_cost` equal the trapezoidal quadrature of the
quadratic control effort `0.5·u·R·u` alone — no `Quinit` term enters the
evaluated cost.  The initial-control weighting appears only in the control
gradient `dldu`, whose sample at the first grid point is
`R·U[0] + uinit·Quinit`. -/
theorem eval_cost_c3_amended (R Quinit uinit : ℚ) (X U ts : List ℚ)
    (hlen : X.length = U.length) :
    eval_cost R X U ts = trapz (U.map (fun u => 1 / 2 * (u * R * u))) ts ∧
    (∀ x0 u0 X2 U2, X = x0 :: X2 → U = u0 :: U2 →
      dldu R Quinit uinit X U =
        (R * u0 + uinit * Quinit) :: List.zipWith (dldu_pointwise R) X2 U2) := by
  constructor
  · unfold eval_cost cost
    rw [zipWith_cost_eq_map R X U hlen]
  · rintro x0 u0 X2 U2 rfl rfl
    rfl

/-- C3 amended witness at `R = 2`, `Quinit = uinit = 1`. -/
theorem eval_cost_c3_amended_witness :
    eval_cost 2 [0, 0] [1, 1] [0, 1] =
      trapz ([1, 1].map (fun u => 1 / 2 * (u * 2 * u))) [0, 1] ∧
    dldu 2 1 1 [0, 0] [1, 1] =
      (2 * 1 + 1 * 1) :: List.zipWith (dldu_pointwise 2) [0] [1] := by
  have h := eval_cost_c3_amended 2 1 1 [0, 0] [1, 1] [0, 1] rfl
  exact ⟨h.1, h.2 0 1 [0] [1] rfl rfl⟩

/-- C5 counterexample: on the grid `[0, 1/2, 1]` with `X0 = 0`,
`alpha = [0, 1, 0]`, `mu = [0, 0, 0]`, re-simulating the projected control
does not reproduce the projected state trajectory (`[0, 19/96, …]` versus
`[0, 5/24, …]`): `project` integrates the closed-loop feedback field while
`simulate` integrates the linear interpolant of the sampled control, and the
fixed-step RK23 solutions of the two fields differ. -/
theorem project_c5_counterexample :
    simulate [0, 1/2, 1] 0 (project [0, 1/2, 1] 0 [0, 1, 0] [0, 0, 0]).2 ≠
      (project [0, 1/2, 1] 0 [0, 1, 0] [0, 0, 0]).1 := by
  norm_num [simulate, project, Ksol, odeSteps, bs23, peqns, fofx, proj, projcontrol,
    linterp, A_interp, B_interp, A_current, B_current]

/-- C5 amended: the round trip agrees at the initial grid point — the
projected trajectory and the re-simulation of the projected control both
start at `X0` — but the full sampled trajectories need not coincide, because
`simulate` integrates the linear interpolant of the sampled feedback control
rather than the closed-loop field `project` integrates; they agree only up to
the integration accuracy. -/
theorem project_c5_amended (ts : List ℚ) (X0 : ℚ) (alpha mu : List ℚ)
    (h : ts ≠ []) :
    (project ts X0 alpha mu).1.head? = some X0 ∧
    (simulate ts X0 (project ts X0 alpha mu).2).head? = some X0 :=
  ⟨odeSteps_head_eq _ _ ts h, odeSteps_head_eq _ _ ts h⟩

/-- C5 amended witness on the grid `[0, 1]`. -/
theorem project_c5_amended_witness :
    (project [0, 1] 0 [0, 0] [0, 0]).1.head? = some 0 ∧
    (simulate [0, 1] 0 (project [0, 1] 0 [0, 0] [0, 0]).2).head? = some 0 :=
  project_c5_amended [0, 1] 0 [0, 0] [0, 0] (by decide)

/-- C4: `barrier(X)` is exactly 0 iff every sample of `X` lies in
`[0, wlimit]` and strictly positive when at least one sample lies outside,
the pointwise penalty being the squared excursion magnitude —
`(x − wlimit)²` above the interval, `x²` below it — integrated over any
strictly increasing time grid by trapezoidal quadrature. -/
theorem barrier_c4 (ts X : List ℚ) (hc : List.Chain' (· < ·) ts)
    (h2 : 2 ≤ ts.length) (hlen : X.length = ts.length) :
    (barrier ts X = 0 ↔ ∀ x ∈ X, 0 ≤ x ∧ x ≤ wlimit) ∧
    ((∃ x ∈ X, x < 0 ∨ wlimit < x) → 0 < barrier ts X) := by
  have hmap_len : (X.map barrier_pointwise).length = ts.length := by
    rw [List.length_map]
    exact hlen
  have hnn : ∀ y ∈ X.map barrier_pointwise, 0 ≤ y := by
    intro y hy
    rcases List.mem_map.mp hy with ⟨x, _, rfl⟩
    exact barrier_pointwise_nonneg x
  have h2' : 2 ≤ (X.map barrier_pointwise).length := by
    rw [hmap_len]
    exact h2
  have hiff2 : barrier ts X = 0 ↔ ∀ x ∈ X, 0 ≤ x ∧ x ≤ wlimit := by
    unfold barrier
    rw [trapz_eq_zero_iff (X.map barrier_pointwise) ts hc hmap_len h2' hnn]
    constructor
    · intro hall x hx
      exact (barrier_pointwise_eq_zero_iff x).mp (hall _ (List.mem_map_of_mem _ hx))
    · intro hall y hy
      rcases List.mem_map.mp hy with ⟨x, hx, rfl⟩
      exact (barrier_pointwise_eq_zero_iff x).mpr (hall x hx)
  refine ⟨hiff2, ?_⟩
  rintro ⟨x, hx, hviol⟩
  have hge : 0 ≤ barrier ts X := by
    unfold barrier
    exact trapz_nonneg _ ts hc hnn
  rcases eq_or_lt_of_le hge with heq | hlt
  · exfalso
    have hmem := hiff2.mp heq.symm x hx
    rcases hviol with h | h
    · linarith [hmem.1]
    · linarith [hmem.2]
  · exact hlt

/-- C4 witness: a trajectory leaving the workspace (`x = 2 > wlimit`) has a
strictly positive barrier cost on the grid `[0, 1/2, 1]`. -/
theorem barrier_c4_witness : 0 < barrier [0, 1/2, 1] [0, 2, 0] := by
  have h := barrier_c4 [0, 1/2, 1] [0, 2, 0]
    (by norm_num [List.chain'_cons]) (by norm_num) rfl
  exact h.2 ⟨2, by norm_num, Or.inr (by norm_num [wlimit])⟩

/-- C6: `set_pdf` resamples the supplied density onto the optimizer's
spatial grid `xlist`, normalizes it so its spatial average (mean over grid
points) equals exactly 1, and computes every target coefficient as
`uk[k] = Σ (pdf · cos(klist[k]·x)) · wlimit / res / hk[k]`. -/
theorem set_pdf_c6 (eidTime xlist pdfIn : List ℚ) (hk : ℕ → ℚ)
    (cosb : ℕ → ℚ → ℚ) (res : ℚ) (hne : xlist ≠ [])
    (hsum : (xlist.map (linterp eidTime pdfIn)).sum ≠ 0) :
    npMean (set_pdf eidTime xlist hk cosb res pdfIn).1 = 1 ∧
    (∀ k, (set_pdf eidTime xlist hk cosb res pdfIn).2 k =
      (List.zipWith (fun pv x => pv * cosb k x)
        (set_pdf eidTime xlist hk cosb res pdfIn).1 xlist).sum
        * wlimit / res / hk k) := by
  have hlen : (xlist.map (linterp eidTime pdfIn)).length = xlist.length :=
    List.length_map _ _
  have hn : ((xlist.length : ℚ)) ≠ 0 := by
    have h0 : xlist.length ≠ 0 := fun hz => hne (List.length_eq_zero.mp hz)
    exact_mod_cast h0
  constructor
  · show npMean (normalize_pdf (xlist.map (linterp eidTime pdfIn))) = 1
    unfold npMean normalize_pdf
    rw [sum_map_div]
    simp only [List.length_map]
    field_simp
  · intro k
    show calculate_uk hk cosb res xlist
      (normalize_pdf (xlist.map (linterp eidTime pdfIn))) k =
      (List.zipWith (fun pv x => pv * cosb k x)
        (normalize_pdf (xlist.map (linterp eidTime pdfIn))) xlist).sum
        * wlimit / res / hk k
    unfold calculate_uk
    rw [sum_zipWith_factor
      (fun pv x => pv / hk k * (wlimit / res * cosb k x))
      (fun pv x => pv * cosb k x) (wlimit / res / hk k)
      (fun a b => by
        show a / hk k * (wlimit / res * cosb k b) = a * cosb k b * (wlimit / res / hk k)
        ring)
      _ xlist]
    ring

/-- C6 witness: a flat density on a two-point grid normalizes to mean 1 and
yields the stated coefficient formula for band 3. -/
theorem set_pdf_c6_witness :
    npMean (set_pdf [0, 1] [0, 1] (fun _ => 1) (fun _ _ => 1) 2 [1, 1]).1 = 1 ∧
    (set_pdf [0, 1] [0, 1] (fun _ => 1) (fun _ _ => 1) 2 [1, 1]).2 3 =
      (List.zipWith (fun pv x => pv * 1)
        (set_pdf [0, 1] [0, 1] (fun _ => 1) (fun _ _ => 1) 2 [1, 1]).1 [0, 1]).sum
        * wlimit / 2 / 1 := by
  have h := set_pdf_c6 [0, 1] [0, 1] [1, 1] (fun _ => 1) (fun _ _ => 1) 2
    (by simp) (by norm_num [linterp])
  exact ⟨h.1, h.2 3⟩

/-- C10: `normalize` applies one common affine map
`x ↦ (x − mean s)·gain / max(s − mean s) + mid` to both series (so their
difference is only rescaled by the common factor), and the returned sensor
series has mean exactly `mid` and maximum exactly `mid + gain` (for the
nonnegative gains the program passes). -/
theorem normalize_c10 (s t : List ℚ) (mid gain : ℚ) (hs : s ≠ [])
    (hM : npMax (s.map (fun x => x - npMean s)) ≠ 0) (hg : 0 ≤ gain) :
    normalize s t mid gain =
      (s.map (fun x =>
        (x - npMean s) * gain / npMax (s.map (fun x => x - npMean s)) + mid),
       t.map (fun x =>
        (x - npMean s) * gain / npMax (s.map (fun x => x - npMean s)) + mid)) ∧
    npMean (normalize s t mid gain).1 = mid ∧
    npMax (normalize s t mid gain).1 = mid + gain := by
  have hMnn : 0 ≤ npMax (s.map (fun x => x - npMean s)) := npMax_centered_nonneg s hs
  have hmap : normalize s t mid gain =
      (s.map (fun x =>
        (x - npMean s) * gain / npMax (s.map (fun x => x - npMean s)) + mid),
       t.map (fun x =>
        (x - npMean s) * gain / npMax (s.map (fun x => x - npMean s)) + mid)) := by
    simp only [normalize, List.map_map, Prod.mk.injEq]
    constructor <;>
    · apply List.map_congr_left
      intro x _
      simp only [Function.comp]
      rw [div_mul_inv_eq]
  have hmean : npMean (normalize s t mid gain).1 = mid := by
    rw [hmap]
    show npMean (s.map (fun x =>
      (x - npMean s) * gain / npMax (s.map (fun x => x - npMean s)) + mid)) = mid
    have hfun : (fun x : ℚ =>
        (x - npMean s) * gain / npMax (s.map (fun x => x - npMean s)) + mid)
        = (fun x : ℚ =>
        x * (gain / npMax (s.map (fun x => x - npMean s)))
          + (mid - npMean s * (gain / npMax (s.map (fun x => x - npMean s))))) := by
      funext x
      ring
    rw [hfun, npMean_map_affine _ _ s hs]
    ring
  have hmax : npMax (normalize s t mid gain).1 = mid + gain := by
    rw [hmap]
    show npMax (s.map (fun x =>
      (x - npMean s) * gain / npMax (s.map (fun x => x - npMean s)) + mid)) = mid + gain
    have hcomp : s.map (fun x =>
        (x - npMean s) * gain / npMax (s.map (fun x => x - npMean s)) + mid)
        = (s.map (fun x => x - npMean s)).map (fun y =>
            y * (gain / npMax (s.map (fun x => x - npMean s))) + mid) := by
      rw [List.map_map]
      apply List.map_congr_left
      intro x _
      simp only [Function.comp]
      ring
    have hsne : s.map (fun x => x - npMean s) ≠ [] := by
      simpa using hs
    rw [hcomp, npMax_map_affine _ _ (div_nonneg hg hMnn) _ hsne]
    rw [mul_comm, div_mul_cancel₀ _ hM]
    ring
  exact ⟨hmap, hmean, hmax⟩

/-- C10 witness: `s = [0, 2]`, `t = [5, 5]`, `mid = 1/2`, `gain = 1/10`
give a sensor series with mean `1/2` and maximum `1/2 + 1/10`. -/
theorem normalize_c10_witness :
    npMean (normalize [0, 2] [5, 5] (1/2) (1/10)).1 = 1/2 ∧
    npMax (normalize [0, 2] [5, 5] (1/2) (1/10)).1 = 1/2 + 1/10 := by
  have h := normalize_c10 [0, 2] [5, 5] (1/2) (1/10) (by simp)
    (by norm_num [npMax, npMean]) (by norm_num)
  exact ⟨h.2.1, h.2.2⟩

end ErgodicHarvesting
